import Mathlib

/-!
Verification of the browser-side resumable multipart upload engine.

The definitions below are a shallow embedding of the TypeScript sources:

- `UploadMemoryStore` and its operations transcribe the class
  `UploadMemoryStore` of src/client/src/upload/store.ts.  A JS `Set` is
  modelled as a duplicate-free insertion-ordered list (`setAdd` inserts at
  the back only when absent, matching `Set.prototype.add`, and `List.erase`
  matches `Set.prototype.delete`); a JS array is a list whose `push`
  appends and whose `pop` removes the last element.  A `Blob` chunk
  produced by `jsBlob.slice(a, b)` is represented by its byte range
  `[a, b)`, whose size is `b - a`.  JS part identity is object reference;
  all parts ever stored come from the `init` enumeration, in which distinct
  objects carry distinct `index` values, so value equality on
  `UploadPart` coincides with reference equality on the states considered.
- `UploadQueue` transcribes src/hiresify/src/upload/queue.ts.
- `apiUpload` transcribes the error normalisation of the `upload` function
  of src/hiresify/src/api/blob.ts (lines 106-133), and the controller
  functions transcribe the `useUpload` hook (src/hiresify/src/upload/hook.ts
  and the variant in src/unnamed/part_011).
-/

namespace Hiresify

/-- UploadPart of src/client/src/upload/type.ts: a 1-based index together
with the chunk `jsBlob.slice(chunkStart, chunkStop)`, represented by its
byte range. -/
structure UploadPart where
  index : Nat
  chunkStart : Nat
  chunkStop : Nat
  deriving DecidableEq, Repr

/-- Size of the chunk Blob, `slice(a, b).size = b - a`. -/
def UploadPart.chunkSize (p : UploadPart) : Nat := p.chunkStop - p.chunkStart

/-- Insertion into a JS `Set` modelled as a duplicate-free list:
`add` appends only when the element is absent. -/
def setAdd (l : List UploadPart) (p : UploadPart) : List UploadPart :=
  if p ∈ l then l else l ++ [p]

/-- State of `UploadMemoryStore` (src/client/src/upload/store.ts): the three
part buckets, the `allClear` flag, the `doneInit` flag and the accumulated
`doneSize`. -/
structure UploadMemoryStore where
  failedParts : List UploadPart
  onDutyParts : List UploadPart
  toSendParts : List UploadPart
  allClear : Bool
  doneInit : Bool
  doneSize : Nat
  deriving DecidableEq, Repr

namespace UploadMemoryStore

/-- Freshly constructed store: all buckets empty, `allClear = false`,
`doneInit = false`, `doneSize = 0`. -/
def new : UploadMemoryStore :=
  { failedParts := [], onDutyParts := [], toSendParts := []
    allClear := false, doneInit := false, doneSize := 0 }

/-- Number of parts enumerated by `init`: `Math.ceil(size / partSize)`.
For `P = 0` the JS loop does not terminate; the claims below always assume
`0 < P`, and the model returns `0` parts in that degenerate case. -/
def partCount (S P : Nat) : Nat := if P = 0 then 0 else (S + P - 1) / P

/-- Parts pushed by the `init` loop: for `index = 1 .. count` the chunk is
`jsBlob.slice(offset, min (offset + partSize) size)` with
`offset = (index - 1) * partSize`. -/
def enumParts (S P : Nat) : List UploadPart :=
  (List.range (partCount S P)).map fun k =>
    { index := k + 1, chunkStart := k * P, chunkStop := min (k * P + P) S }

/-- Method `init`: a no-op when `doneInit` is already set; otherwise pushes
the enumerated parts onto `toSendParts` and sets `doneInit`. -/
def init (s : UploadMemoryStore) (S P : Nat) : UploadMemoryStore :=
  if s.doneInit then s
  else { s with toSendParts := s.toSendParts ++ enumParts S P, doneInit := true }

/-- Method `failPart`: a silent no-op unless the part is on duty; otherwise
pushes it onto `failedParts`, deletes it from `onDutyParts` and recomputes
`allClear`. -/
def failPart (s : UploadMemoryStore) (p : UploadPart) : UploadMemoryStore :=
  if p ∈ s.onDutyParts then
    { s with failedParts := s.failedParts ++ [p]
             onDutyParts := s.onDutyParts.erase p
             allClear := (s.onDutyParts.erase p).isEmpty }
  else s

/-- Method `nextPart`: `toSendParts.pop()` removes and returns the last
element (or `undefined` on an empty array); a returned part is added to the
on-duty set. -/
def nextPart (s : UploadMemoryStore) : Option UploadPart × UploadMemoryStore :=
  match s.toSendParts.getLast? with
  | none => (none, s)
  | some p =>
      (some p,
        { s with toSendParts := s.toSendParts.dropLast
                 onDutyParts := setAdd s.onDutyParts p })

/-- Method `passPart`: a silent no-op unless the part is on duty; otherwise
deletes it from `onDutyParts`, recomputes `allClear` and adds the chunk size
to `doneSize`. -/
def passPart (s : UploadMemoryStore) (p : UploadPart) : UploadMemoryStore :=
  if p ∈ s.onDutyParts then
    { s with onDutyParts := s.onDutyParts.erase p
             allClear := (s.onDutyParts.erase p).isEmpty
             doneSize := s.doneSize + p.chunkSize }
  else s

/-- Method `pause`: pushes every on-duty part (in Set insertion order) onto
`toSendParts`, then clears `onDutyParts`.  Note that it does not touch
`allClear`. -/
def pause (s : UploadMemoryStore) : UploadMemoryStore :=
  { s with toSendParts := s.toSendParts ++ s.onDutyParts, onDutyParts := [] }

/-- Method `retry`: pushes every failed part onto `toSendParts`, then clears
`failedParts`. -/
def retry (s : UploadMemoryStore) : UploadMemoryStore :=
  { s with toSendParts := s.toSendParts ++ s.failedParts, failedParts := [] }

/-- Inspector `getAllClear`. -/
def getAllClear (s : UploadMemoryStore) : Bool := s.allClear

/-- Inspector `getDoneSize`. -/
def getDoneSize (s : UploadMemoryStore) : Nat := s.doneSize

end UploadMemoryStore

/-- One call against the store, with the arguments chosen by the caller. -/
inductive StoreOp where
  | init (S P : Nat)
  | next
  | pass (p : UploadPart)
  | fail (p : UploadPart)
  | pause
  | retry
  deriving DecidableEq, Repr

/-- Effect of one store call (the result of `nextPart` is returned to the
caller and otherwise discarded). -/
def applyOp (s : UploadMemoryStore) : StoreOp → UploadMemoryStore
  | .init S P => s.init S P
  | .next => (s.nextPart).2
  | .pass p => s.passPart p
  | .fail p => s.failPart p
  | .pause => s.pause
  | .retry => s.retry

/-- Effect of a finite sequence of store calls. -/
def applyOps (s : UploadMemoryStore) (ops : List StoreOp) : UploadMemoryStore :=
  ops.foldl applyOp s

/-- States reachable from a freshly constructed store by any finite call
sequence. -/
def Reachable (s : UploadMemoryStore) : Prop :=
  ∃ ops : List StoreOp, s = applyOps UploadMemoryStore.new ops

/-- States reachable after a store has been initialised for a file of size
`S` with part size `P`. -/
def ReachableFrom (S P : Nat) (s : UploadMemoryStore) : Prop :=
  ∃ ops : List StoreOp, s = applyOps (UploadMemoryStore.new.init S P) ops

/-- All parts currently retained in a bucket of the store. -/
def buckets (s : UploadMemoryStore) : List UploadPart :=
  s.toSendParts ++ s.onDutyParts ++ s.failedParts

/-- Sum of the chunk sizes of a list of parts. -/
def sizeSum (l : List UploadPart) : Nat :=
  (l.map UploadPart.chunkSize).sum

/-- Index bound of the `init` enumeration: part `k` exists exactly when its
offset `k * P` lies inside the file. -/
theorem lt_partCount_iff {S P : Nat} (hP : 0 < P) {k : Nat} :
    k < UploadMemoryStore.partCount S P ↔ k * P < S := by
  unfold UploadMemoryStore.partCount
  rw [if_neg (Nat.pos_iff_ne_zero.mp hP)]
  rw [show (k < (S + P - 1) / P ↔ k + 1 ≤ (S + P - 1) / P) from Iff.rfl,
    Nat.le_div_iff_mul_le hP]
  have hk : (k + 1) * P = k * P + P := by ring
  omega

/-- The enumeration always covers the whole file: `partCount * P ≥ S`. -/
theorem le_partCount_mul {S P : Nat} (hP : 0 < P) :
    S ≤ UploadMemoryStore.partCount S P * P := by
  by_contra h
  push_neg at h
  have := (lt_partCount_iff hP).mpr h
  omega

theorem enumParts_length (S P : Nat) :
    (UploadMemoryStore.enumParts S P).length = UploadMemoryStore.partCount S P := by
  simp [UploadMemoryStore.enumParts]

theorem enumParts_get (S P k : Nat)
    (hk : k < (UploadMemoryStore.enumParts S P).length) :
    (UploadMemoryStore.enumParts S P).get ⟨k, hk⟩
      = ⟨k + 1, k * P, min (k * P + P) S⟩ := by
  simp [UploadMemoryStore.enumParts]

/-- Telescoping sum over a monotone function starting at `0`. -/
theorem telescopeSum (f : Nat → Nat) (hf : Monotone f) (h0 : f 0 = 0) :
    ∀ n, ((List.range n).map fun k => f (k + 1) - f k).sum = f n := by
  intro n
  induction n with
  | zero => simpa using h0.symm
  | succ n ih =>
      rw [List.range_succ, List.map_append, List.sum_append, ih]
      have := hf (Nat.le_add_right n 1)
      simp only [List.map_cons, List.map_nil, List.sum_cons, List.sum_nil,
        Nat.add_zero]
      omega

/-- Chunk sizes enumerated by `init` add up to the file size. -/
theorem enum_sizeSum (S P : Nat) (hP : 0 < P) :
    sizeSum (UploadMemoryStore.enumParts S P) = S := by
  have hmono : Monotone fun k => min (k * P) S := by
    intro a b hab
    exact min_le_min (Nat.mul_le_mul_right P hab) le_rfl
  have htel := telescopeSum (fun k => min (k * P) S) hmono (by simp)
    (UploadMemoryStore.partCount S P)
  unfold sizeSum UploadMemoryStore.enumParts
  rw [List.map_map]
  have hcongr :
      ((List.range (UploadMemoryStore.partCount S P)).map
          (UploadPart.chunkSize ∘ fun k =>
            (⟨k + 1, k * P, min (k * P + P) S⟩ : UploadPart)))
        = (List.range (UploadMemoryStore.partCount S P)).map
            fun k => min ((k + 1) * P) S - min (k * P) S := by
    apply List.map_congr_left
    intro k hk
    have hklt : k * P < S := (lt_partCount_iff hP).mp (List.mem_range.mp hk)
    have h1 : min (k * P) S = k * P := min_eq_left (le_of_lt hklt)
    have h2 : (k + 1) * P = k * P + P := by ring
    simp [UploadPart.chunkSize, h1, h2]
  rw [hcongr, htel]
  exact min_eq_right (le_partCount_mul hP)

/-- A second `init` call is a no-op once `doneInit` has been set. -/
theorem init_of_doneInit (s : UploadMemoryStore) (h : s.doneInit = true)
    (S' P' : Nat) : s.init S' P' = s := by
  unfold UploadMemoryStore.init
  rw [if_pos h]

theorem new_init_toSend (S P : Nat) :
    (UploadMemoryStore.new.init S P).toSendParts
      = UploadMemoryStore.enumParts S P := by
  simp [UploadMemoryStore.init, UploadMemoryStore.new]

theorem new_init_doneInit (S P : Nat) :
    (UploadMemoryStore.new.init S P).doneInit = true := by
  simp [UploadMemoryStore.init, UploadMemoryStore.new]

/-- C6: `init` on a fresh store appends exactly `⌈S/P⌉` parts, indexed
`1 .. partCount` with contiguous byte ranges that cover the file (every part
but the last has length `P`, every part is non-empty and no longer than
`P`, the first starts at byte `0` and the last ends at byte `S`, and the
chunk sizes add up to `S`), and any subsequent `init` call, with any
arguments, leaves the store unchanged. -/
theorem claim_c6 (S P : Nat) (hP : 0 < P) :
    (UploadMemoryStore.new.init S P).toSendParts.length = (S + P - 1) / P
      ∧ (∀ k (hk : k < (UploadMemoryStore.new.init S P).toSendParts.length),
          (UploadMemoryStore.new.init S P).toSendParts.get ⟨k, hk⟩
            = ⟨k + 1, k * P, min (k * P + P) S⟩)
      ∧ (∀ k (hk : k + 1 < (UploadMemoryStore.new.init S P).toSendParts.length),
          ((UploadMemoryStore.new.init S P).toSendParts.get
              ⟨k, Nat.lt_of_succ_lt hk⟩).chunkStop
            = ((UploadMemoryStore.new.init S P).toSendParts.get ⟨k + 1, hk⟩).chunkStart
          ∧ ((UploadMemoryStore.new.init S P).toSendParts.get
              ⟨k, Nat.lt_of_succ_lt hk⟩).chunkSize = P)
      ∧ (∀ k (hk : k < (UploadMemoryStore.new.init S P).toSendParts.length),
          0 < ((UploadMemoryStore.new.init S P).toSendParts.get ⟨k, hk⟩).chunkSize
          ∧ ((UploadMemoryStore.new.init S P).toSendParts.get ⟨k, hk⟩).chunkSize ≤ P)
      ∧ (∀ h0 : 0 < (UploadMemoryStore.new.init S P).toSendParts.length,
          ((UploadMemoryStore.new.init S P).toSendParts.get
              ⟨0, h0⟩).chunkStart = 0
          ∧ ((UploadMemoryStore.new.init S P).toSendParts.get
              ⟨(UploadMemoryStore.new.init S P).toSendParts.length - 1,
                Nat.sub_lt h0 Nat.one_pos⟩).chunkStop = S)
      ∧ sizeSum (UploadMemoryStore.new.init S P).toSendParts = S
      ∧ (UploadMemoryStore.new.init S P).doneInit = true
      ∧ ∀ S' P' : Nat,
          (UploadMemoryStore.new.init S P).init S' P' = UploadMemoryStore.new.init S P := by
  have hts := new_init_toSend S P
  have hlen : (UploadMemoryStore.new.init S P).toSendParts.length
      = UploadMemoryStore.partCount S P := by
    rw [hts, enumParts_length]
  have hget : ∀ k (hk : k < (UploadMemoryStore.new.init S P).toSendParts.length),
      (UploadMemoryStore.new.init S P).toSendParts.get ⟨k, hk⟩
        = ⟨k + 1, k * P, min (k * P + P) S⟩ := by
    intro k hk
    have hk' : k < (UploadMemoryStore.enumParts S P).length := by
      rw [← hts]; exact hk
    rw [List.get_of_eq hts ⟨k, hk⟩]
    exact enumParts_get S P k hk'
  refine ⟨?_, hget, ?_, ?_, ?_, ?_, new_init_doneInit S P, ?_⟩
  · rw [hlen]
    unfold UploadMemoryStore.partCount
    rw [if_neg (Nat.pos_iff_ne_zero.mp hP)]
  · intro k hk
    have hkc : k + 1 < UploadMemoryStore.partCount S P := by rw [← hlen]; exact hk
    have hlt : (k + 1) * P < S := (lt_partCount_iff hP).mp hkc
    have hmin : min (k * P + P) S = k * P + P := by
      apply min_eq_left
      have : (k + 1) * P = k * P + P := by ring
      omega
    rw [hget k (Nat.lt_of_succ_lt hk), hget (k + 1) hk]
    constructor
    · simp [hmin]; ring
    · simp [UploadPart.chunkSize, hmin]
  · intro k hk
    have hkc : k < UploadMemoryStore.partCount S P := by rw [← hlen]; exact hk
    have hlt : k * P < S := (lt_partCount_iff hP).mp hkc
    rw [hget k hk]
    simp only [UploadPart.chunkSize]
    constructor
    · have h1 : k * P < min (k * P + P) S := lt_min (by omega) hlt
      omega
    · have h2 : min (k * P + P) S ≤ k * P + P := min_le_left _ _
      omega
  · intro h0
    have hmul : ∀ n : Nat, 0 < n → (n - 1) * P + P = n * P := by
      intro n hn
      obtain ⟨m, rfl⟩ : ∃ m, n = m + 1 := ⟨n - 1, by omega⟩
      simp [Nat.add_sub_cancel, Nat.succ_mul]
    constructor
    · rw [hget 0 h0]; simp
    · rw [hget _ (Nat.sub_lt h0 Nat.one_pos)]
      simp only []
      rw [hmul _ h0, hlen]
      exact min_eq_right (le_partCount_mul hP)
  · rw [hts]; exact enum_sizeSum S P hP
  · exact init_of_doneInit _ (new_init_doneInit S P)

/-- Witness for C6 at `S = 3`, `P = 2`. -/
theorem claim_c6_witness :
    0 < 2
      ∧ ((UploadMemoryStore.new.init 3 2).toSendParts.length = (3 + 2 - 1) / 2
          ∧ (∀ k (hk : k < (UploadMemoryStore.new.init 3 2).toSendParts.length),
              (UploadMemoryStore.new.init 3 2).toSendParts.get ⟨k, hk⟩
                = ⟨k + 1, k * 2, min (k * 2 + 2) 3⟩)
          ∧ (∀ k (hk : k + 1 < (UploadMemoryStore.new.init 3 2).toSendParts.length),
              ((UploadMemoryStore.new.init 3 2).toSendParts.get
                  ⟨k, Nat.lt_of_succ_lt hk⟩).chunkStop
                = ((UploadMemoryStore.new.init 3 2).toSendParts.get ⟨k + 1, hk⟩).chunkStart
              ∧ ((UploadMemoryStore.new.init 3 2).toSendParts.get
                  ⟨k, Nat.lt_of_succ_lt hk⟩).chunkSize = 2)
          ∧ (∀ k (hk : k < (UploadMemoryStore.new.init 3 2).toSendParts.length),
              0 < ((UploadMemoryStore.new.init 3 2).toSendParts.get ⟨k, hk⟩).chunkSize
              ∧ ((UploadMemoryStore.new.init 3 2).toSendParts.get ⟨k, hk⟩).chunkSize ≤ 2)
          ∧ (∀ h0 : 0 < (UploadMemoryStore.new.init 3 2).toSendParts.length,
              ((UploadMemoryStore.new.init 3 2).toSendParts.get
                  ⟨0, h0⟩).chunkStart = 0
              ∧ ((UploadMemoryStore.new.init 3 2).toSendParts.get
                  ⟨(UploadMemoryStore.new.init 3 2).toSendParts.length - 1,
                    Nat.sub_lt h0 Nat.one_pos⟩).chunkStop = 3)
          ∧ sizeSum (UploadMemoryStore.new.init 3 2).toSendParts = 3
          ∧ (UploadMemoryStore.new.init 3 2).doneInit = true
          ∧ ∀ S' P' : Nat,
              (UploadMemoryStore.new.init 3 2).init S' P'
                = UploadMemoryStore.new.init 3 2) :=
  ⟨by decide, claim_c6 3 2 (by decide)⟩

/-- Multiset of all parts currently retained in a bucket of the store. -/
def bucketsMs (s : UploadMemoryStore) : Multiset UploadPart :=
  (↑s.toSendParts : Multiset UploadPart) + ↑s.onDutyParts + ↑s.failedParts

theorem enumParts_nodup (S P : Nat) : (UploadMemoryStore.enumParts S P).Nodup := by
  unfold UploadMemoryStore.enumParts
  refine List.Nodup.map ?_ (List.nodup_range _)
  intro a b hab
  have := congrArg UploadPart.index hab
  simpa using this

theorem enumParts_chunkSize_pos (S P : Nat) (hP : 0 < P) :
    ∀ q ∈ UploadMemoryStore.enumParts S P, 0 < q.chunkSize := by
  intro q hq
  unfold UploadMemoryStore.enumParts at hq
  obtain ⟨k, hk, rfl⟩ := List.mem_map.mp hq
  have hklt : k * P < S := (lt_partCount_iff hP).mp (List.mem_range.mp hk)
  have : k * P < min (k * P + P) S := lt_min (by omega) hklt
  simp only [UploadPart.chunkSize]
  omega

/-- Accounting invariant behind C2: once initialised, the bucket contents
plus some multiset of passed parts form exactly the `init` enumeration, and
`doneSize` is the total size of the passed parts. -/
def SizeInv (S P : Nat) (s : UploadMemoryStore) : Prop :=
  s.doneInit = true ∧
    ∃ passed : Multiset UploadPart,
      bucketsMs s + passed = ↑(UploadMemoryStore.enumParts S P)
        ∧ s.doneSize = (passed.map UploadPart.chunkSize).sum

theorem sizeInv_base (S P : Nat) : SizeInv S P (UploadMemoryStore.new.init S P) := by
  refine ⟨new_init_doneInit S P, 0, ?_, rfl⟩
  simp [bucketsMs, UploadMemoryStore.init, UploadMemoryStore.new]

theorem sizeInv_preserved (S P : Nat) (s : UploadMemoryStore)
    (h : SizeInv S P s) (op : StoreOp) : SizeInv S P (applyOp s op) := by
  obtain ⟨hdi, passed, hms, hds⟩ := h
  cases op with
  | init S' P' =>
      simpa [applyOp, init_of_doneInit s hdi] using ⟨hdi, passed, hms, hds⟩
  | next =>
      rcases hgl : s.toSendParts.getLast? with _ | p
      · have hno : (s.nextPart).2 = s := by
          simp [UploadMemoryStore.nextPart, hgl]
        rw [applyOp, hno]
        exact ⟨hdi, passed, hms, hds⟩
      · have hdecomp : s.toSendParts.dropLast ++ [p] = s.toSendParts :=
          List.dropLast_append_getLast? p (by rw [hgl]; rfl)
        have hle : bucketsMs s ≤ ↑(UploadMemoryStore.enumParts S P) :=
          Multiset.le_iff_exists_add.mpr ⟨passed, hms.symm⟩
        have hnd : (bucketsMs s).Nodup :=
          Multiset.nodup_of_le hle (Multiset.coe_nodup.mpr (enumParts_nodup S P))
        have hpts : p ∈ s.toSendParts := by
          rw [← hdecomp]; simp
        have hpod : p ∉ s.onDutyParts := by
          intro hin
          have hcount := Multiset.nodup_iff_count_le_one.mp hnd p
          have h1 : 1 ≤ Multiset.count p (↑s.toSendParts : Multiset UploadPart) := by
            rw [Multiset.one_le_count_iff_mem, Multiset.mem_coe]
            exact hpts
          have h2 : 1 ≤ Multiset.count p (↑s.onDutyParts : Multiset UploadPart) := by
            rw [Multiset.one_le_count_iff_mem, Multiset.mem_coe]
            exact hin
          simp only [bucketsMs, Multiset.count_add] at hcount
          omega
        have hnext : (s.nextPart).2
            = { s with toSendParts := s.toSendParts.dropLast
                       onDutyParts := s.onDutyParts ++ [p] } := by
          simp [UploadMemoryStore.nextPart, hgl, setAdd, hpod]
        rw [applyOp, hnext]
        refine ⟨hdi, passed, ?_, hds⟩
        rw [← hms]
        simp only [bucketsMs]
        conv_rhs => rw [← hdecomp]
        simp only [← Multiset.coe_add]
        abel_nf
  | pass p =>
      by_cases hp : p ∈ s.onDutyParts
      · have heff : s.passPart p
            = { s with onDutyParts := s.onDutyParts.erase p
                       allClear := (s.onDutyParts.erase p).isEmpty
                       doneSize := s.doneSize + p.chunkSize } := by
          simp [UploadMemoryStore.passPart, hp]
        rw [applyOp, heff]
        refine ⟨hdi, passed + {p}, ?_, ?_⟩
        · have hco : (p ::ₘ ↑(s.onDutyParts.erase p) : Multiset UploadPart)
              = ↑s.onDutyParts := by
            rw [← Multiset.coe_erase]
            exact Multiset.cons_erase (Multiset.mem_coe.mpr hp)
          rw [← hms]
          simp only [bucketsMs]
          rw [← hco, ← Multiset.singleton_add]
          abel_nf
        · rw [hds]
          simp
      · have heff : s.passPart p = s := by
          simp [UploadMemoryStore.passPart, hp]
        rw [applyOp, heff]
        exact ⟨hdi, passed, hms, hds⟩
  | fail p =>
      by_cases hp : p ∈ s.onDutyParts
      · have heff : s.failPart p
            = { s with failedParts := s.failedParts ++ [p]
                       onDutyParts := s.onDutyParts.erase p
                       allClear := (s.onDutyParts.erase p).isEmpty } := by
          simp [UploadMemoryStore.failPart, hp]
        rw [applyOp, heff]
        refine ⟨hdi, passed, ?_, hds⟩
        have hco : (p ::ₘ ↑(s.onDutyParts.erase p) : Multiset UploadPart)
            = ↑s.onDutyParts := by
          rw [← Multiset.coe_erase]
          exact Multiset.cons_erase (Multiset.mem_coe.mpr hp)
        rw [← hms]
        simp only [bucketsMs]
        rw [← hco, ← Multiset.singleton_add]
        simp only [← Multiset.coe_add, Multiset.coe_singleton]
        abel_nf
      · have heff : s.failPart p = s := by
          simp [UploadMemoryStore.failPart, hp]
        rw [applyOp, heff]
        exact ⟨hdi, passed, hms, hds⟩
  | pause =>
      refine ⟨hdi, passed, ?_, hds⟩
      rw [← hms]
      simp only [bucketsMs, applyOp, UploadMemoryStore.pause]
      simp only [← Multiset.coe_add, Multiset.coe_nil]
      abel_nf
  | retry =>
      refine ⟨hdi, passed, ?_, hds⟩
      rw [← hms]
      simp only [bucketsMs, applyOp, UploadMemoryStore.retry]
      simp only [← Multiset.coe_add, Multiset.coe_nil]
      abel_nf

theorem sizeInv_fold (S P : Nat) (ops : List StoreOp) :
    ∀ s : UploadMemoryStore, SizeInv S P s → SizeInv S P (applyOps s ops) := by
  induction ops with
  | nil => intro s h; exact h
  | cons op rest ih =>
      intro s h
      exact ih _ (sizeInv_preserved S P s h op)

theorem sizeInv_reachable (S P : Nat) (s : UploadMemoryStore)
    (hs : ReachableFrom S P s) : SizeInv S P s := by
  obtain ⟨ops, rfl⟩ := hs
  exact sizeInv_fold S P ops _ (sizeInv_base S P)

theorem multiset_sizes_zero (m : Multiset UploadPart)
    (hpos : ∀ q ∈ m, 0 < q.chunkSize)
    (h : (m.map UploadPart.chunkSize).sum = 0) : m = 0 := by
  by_contra hne
  obtain ⟨q, hq⟩ := Multiset.exists_mem_of_ne_zero hne
  have h1 : q.chunkSize ∈ m.map UploadPart.chunkSize :=
    Multiset.mem_map_of_mem _ hq
  have h2 : q.chunkSize ≤ (m.map UploadPart.chunkSize).sum :=
    Multiset.single_le_sum (fun x _ => Nat.zero_le x) _ h1
  have := hpos q hq
  omega

/-- C2: on every store state reachable after initialisation for a file of
size `S` with part size `P`, some multiset `passed` of already-passed parts
completes the bucket contents to exactly the `init` enumeration (so each
enumerated part is counted at most once, with no double-count), `doneSize`
is the total byte length of `passed`, it never exceeds `S`, and it equals
`S` exactly when every enumerated part has been passed. -/
theorem claim_c2 (S P : Nat) (hP : 0 < P) (s : UploadMemoryStore)
    (hs : ReachableFrom S P s) :
    ∃ passed : Multiset UploadPart,
      bucketsMs s + passed = ↑(UploadMemoryStore.enumParts S P)
        ∧ s.getDoneSize = (passed.map UploadPart.chunkSize).sum
        ∧ s.getDoneSize ≤ S
        ∧ (s.getDoneSize = S ↔ passed = ↑(UploadMemoryStore.enumParts S P)) := by
  obtain ⟨-, passed, hms, hds⟩ := sizeInv_reachable S P s hs
  have hsum : ((↑(UploadMemoryStore.enumParts S P) : Multiset UploadPart).map
      UploadPart.chunkSize).sum = S := by
    rw [Multiset.map_coe, Multiset.sum_coe]
    exact enum_sizeSum S P hP
  have hsplit := congrArg (fun m => (m.map UploadPart.chunkSize).sum) hms
  simp only [Multiset.map_add, Multiset.sum_add] at hsplit
  rw [hsum] at hsplit
  have hdone : s.getDoneSize = (passed.map UploadPart.chunkSize).sum := hds
  refine ⟨passed, hms, hdone, by omega, ?_, ?_⟩
  · intro hfull
    have hzero : ((bucketsMs s).map UploadPart.chunkSize).sum = 0 := by
      rw [UploadMemoryStore.getDoneSize] at hfull
      omega
    have hposall : ∀ q ∈ bucketsMs s, 0 < q.chunkSize := by
      intro q hq
      have hle : bucketsMs s ≤ ↑(UploadMemoryStore.enumParts S P) :=
        Multiset.le_iff_exists_add.mpr ⟨passed, hms.symm⟩
      have : q ∈ (↑(UploadMemoryStore.enumParts S P) : Multiset UploadPart) :=
        Multiset.mem_of_le hle hq
      exact enumParts_chunkSize_pos S P hP q (Multiset.mem_coe.mp this)
    have hb0 : bucketsMs s = 0 := multiset_sizes_zero _ hposall hzero
    rw [hb0, zero_add] at hms
    exact hms
  · intro hpassed
    rw [hpassed] at hms
    have hb0 : bucketsMs s = 0 := by
      have := congrArg
        (fun m => m - (↑(UploadMemoryStore.enumParts S P) : Multiset UploadPart)) hms
      simpa using this
    rw [hpassed] at hdone
    rw [hdone, hsum]

/-- Witness for C2 at the just-initialised store for `S = 2`, `P = 1`. -/
theorem claim_c2_witness :
    0 < 1
      ∧ ∃ passed : Multiset UploadPart,
          bucketsMs (UploadMemoryStore.new.init 2 1) + passed
              = ↑(UploadMemoryStore.enumParts 2 1)
            ∧ (UploadMemoryStore.new.init 2 1).getDoneSize
                = (passed.map UploadPart.chunkSize).sum
            ∧ (UploadMemoryStore.new.init 2 1).getDoneSize ≤ 2
            ∧ ((UploadMemoryStore.new.init 2 1).getDoneSize = 2
                ↔ passed = ↑(UploadMemoryStore.enumParts 2 1)) :=
  ⟨by decide, claim_c2 2 1 (by decide) _ ⟨[], rfl⟩⟩

theorem passPart_noop (s : UploadMemoryStore) (p : UploadPart)
    (h : p ∉ s.onDutyParts) : s.passPart p = s := by
  simp [UploadMemoryStore.passPart, h]

theorem failPart_noop (s : UploadMemoryStore) (p : UploadPart)
    (h : p ∉ s.onDutyParts) : s.failPart p = s := by
  simp [UploadMemoryStore.failPart, h]

theorem bucketsMs_new : bucketsMs UploadMemoryStore.new = 0 := by
  simp [bucketsMs, UploadMemoryStore.new]

theorem bucketsMs_eq_zero_iff (s : UploadMemoryStore) :
    bucketsMs s = 0
      ↔ s.toSendParts = [] ∧ s.onDutyParts = [] ∧ s.failedParts = [] := by
  constructor
  · intro h
    have h1 : (↑s.toSendParts : Multiset UploadPart) ≤ bucketsMs s :=
      le_add_right (le_add_right le_rfl)
    have h2 : (↑s.onDutyParts : Multiset UploadPart) ≤ bucketsMs s :=
      le_add_right le_add_self
    have h3 : (↑s.failedParts : Multiset UploadPart) ≤ bucketsMs s :=
      le_add_self
    rw [h] at h1 h2 h3
    refine ⟨?_, ?_, ?_⟩ <;>
      rw [← Multiset.coe_eq_zero] <;> exact Multiset.le_zero.mp (by assumption)
  · intro ⟨h1, h2, h3⟩
    simp [bucketsMs, h1, h2, h3]

theorem notMem_of_nodup_buckets (s : UploadMemoryStore) (p : UploadPart)
    (l : List UploadPart) (hnd : (bucketsMs s).Nodup)
    (hl : l ++ [p] = s.toSendParts) :
    p ∉ l ∧ p ∉ s.onDutyParts ∧ p ∉ s.failedParts := by
  have hcount := Multiset.nodup_iff_count_le_one.mp hnd p
  simp only [bucketsMs, Multiset.count_add] at hcount
  rw [← hl, (Multiset.coe_add l [p]).symm, Multiset.count_add,
    Multiset.coe_singleton, Multiset.count_singleton_self] at hcount
  refine ⟨?_, ?_, ?_⟩ <;> intro hmem
  · have : 1 ≤ Multiset.count p (↑l : Multiset UploadPart) :=
      Multiset.one_le_count_iff_mem.mpr (Multiset.mem_coe.mpr hmem)
    omega
  · have : 1 ≤ Multiset.count p (↑s.onDutyParts : Multiset UploadPart) :=
      Multiset.one_le_count_iff_mem.mpr (Multiset.mem_coe.mpr hmem)
    omega
  · have : 1 ≤ Multiset.count p (↑s.failedParts : Multiset UploadPart) :=
      Multiset.one_le_count_iff_mem.mpr (Multiset.mem_coe.mpr hmem)
    omega

/-- Structural invariant behind C9: before initialisation all buckets are
empty, and the bucket contents never contain a duplicate part. -/
def NodupInv (s : UploadMemoryStore) : Prop :=
  (s.doneInit = false → bucketsMs s = 0) ∧ (bucketsMs s).Nodup

theorem nodupInv_base : NodupInv UploadMemoryStore.new :=
  ⟨fun _ => bucketsMs_new, by rw [bucketsMs_new]; exact Multiset.nodup_zero⟩

theorem nodupInv_preserved (s : UploadMemoryStore) (h : NodupInv s)
    (op : StoreOp) : NodupInv (applyOp s op) := by
  obtain ⟨hempty, hnd⟩ := h
  cases op with
  | init S' P' =>
      by_cases hdi : s.doneInit
      · rw [applyOp, init_of_doneInit s hdi]
        exact ⟨hempty, hnd⟩
      · have hb := hempty (by simpa using hdi)
        obtain ⟨h1, h2, h3⟩ := (bucketsMs_eq_zero_iff s).mp hb
        have heff : s.init S' P'
            = { s with toSendParts := s.toSendParts ++ UploadMemoryStore.enumParts S' P'
                       doneInit := true } := by
          simp [UploadMemoryStore.init, hdi]
        rw [applyOp, heff]
        constructor
        · intro hfalse
          simp at hfalse
        · simp [bucketsMs, h1, h2, h3]
          exact Multiset.coe_nodup.mpr (enumParts_nodup S' P')
  | next =>
      rcases hgl : s.toSendParts.getLast? with _ | p
      · have hno : (s.nextPart).2 = s := by
          simp [UploadMemoryStore.nextPart, hgl]
        rw [applyOp, hno]
        exact ⟨hempty, hnd⟩
      · have hdecomp : s.toSendParts.dropLast ++ [p] = s.toSendParts :=
          List.dropLast_append_getLast? p (by rw [hgl]; rfl)
        obtain ⟨-, hpod, -⟩ := notMem_of_nodup_buckets s p _ hnd hdecomp
        have hnext : (s.nextPart).2
            = { s with toSendParts := s.toSendParts.dropLast
                       onDutyParts := s.onDutyParts ++ [p] } := by
          simp [UploadMemoryStore.nextPart, hgl, setAdd, hpod]
        have hbeq : bucketsMs { s with toSendParts := s.toSendParts.dropLast
                                       onDutyParts := s.onDutyParts ++ [p] }
            = bucketsMs s := by
          simp only [bucketsMs]
          conv_rhs => rw [← hdecomp]
          simp only [← Multiset.coe_add]
          abel_nf
        rw [applyOp, hnext]
        constructor
        · intro hfalse
          have hb := hempty hfalse
          obtain ⟨h1, -, -⟩ := (bucketsMs_eq_zero_iff s).mp hb
          rw [h1] at hgl
          simp at hgl
        · rw [hbeq]; exact hnd
  | pass p =>
      by_cases hp : p ∈ s.onDutyParts
      · have heff : s.passPart p
            = { s with onDutyParts := s.onDutyParts.erase p
                       allClear := (s.onDutyParts.erase p).isEmpty
                       doneSize := s.doneSize + p.chunkSize } := by
          simp [UploadMemoryStore.passPart, hp]
        rw [applyOp, heff]
        constructor
        · intro hfalse
          have hb := hempty hfalse
          obtain ⟨-, h2, -⟩ := (bucketsMs_eq_zero_iff s).mp hb
          rw [h2] at hp
          simp at hp
        · refine Multiset.nodup_of_le ?_ hnd
          simp only [bucketsMs]
          have : (↑(s.onDutyParts.erase p) : Multiset UploadPart)
              ≤ ↑s.onDutyParts := by
            rw [← Multiset.coe_erase]
            exact Multiset.erase_le p _
          exact add_le_add (add_le_add le_rfl this) le_rfl
      · rw [applyOp, passPart_noop s p hp]
        exact ⟨hempty, hnd⟩
  | fail p =>
      by_cases hp : p ∈ s.onDutyParts
      · have heff : s.failPart p
            = { s with failedParts := s.failedParts ++ [p]
                       onDutyParts := s.onDutyParts.erase p
                       allClear := (s.onDutyParts.erase p).isEmpty } := by
          simp [UploadMemoryStore.failPart, hp]
        have hco : (p ::ₘ ↑(s.onDutyParts.erase p) : Multiset UploadPart)
            = ↑s.onDutyParts := by
          rw [← Multiset.coe_erase]
          exact Multiset.cons_erase (Multiset.mem_coe.mpr hp)
        have hbeq : bucketsMs { s with failedParts := s.failedParts ++ [p]
                                       onDutyParts := s.onDutyParts.erase p
                                       allClear := (s.onDutyParts.erase p).isEmpty }
            = bucketsMs s := by
          simp only [bucketsMs]
          conv_rhs => rw [← hco, ← Multiset.singleton_add]
          simp only [← Multiset.coe_add, Multiset.coe_singleton]
          abel_nf
        rw [applyOp, heff]
        constructor
        · intro hfalse
          have hb := hempty hfalse
          obtain ⟨-, h2, -⟩ := (bucketsMs_eq_zero_iff s).mp hb
          rw [h2] at hp
          simp at hp
        · rw [hbeq]; exact hnd
      · rw [applyOp, failPart_noop s p hp]
        exact ⟨hempty, hnd⟩
  | pause =>
      have hbeq : bucketsMs s.pause = bucketsMs s := by
        simp only [bucketsMs, UploadMemoryStore.pause]
        simp only [← Multiset.coe_add, Multiset.coe_nil]
        abel_nf
      simp only [applyOp]
      exact ⟨fun hfalse => by rw [hbeq]; exact hempty hfalse,
        by rw [hbeq]; exact hnd⟩
  | retry =>
      have hbeq : bucketsMs s.retry = bucketsMs s := by
        simp only [bucketsMs, UploadMemoryStore.retry]
        simp only [← Multiset.coe_add, Multiset.coe_nil]
        abel_nf
      simp only [applyOp]
      exact ⟨fun hfalse => by rw [hbeq]; exact hempty hfalse,
        by rw [hbeq]; exact hnd⟩

theorem nodupInv_reachable (s : UploadMemoryStore) (hs : Reachable s) :
    NodupInv s := by
  obtain ⟨ops, rfl⟩ := hs
  have hfold : ∀ t : UploadMemoryStore, NodupInv t → NodupInv (applyOps t ops) := by
    induction ops with
    | nil => intro t h; exact h
    | cons op rest ih => intro t h; exact ih _ (nodupInv_preserved t h op)
  exact hfold _ nodupInv_base

/-- A part that is in no bucket of an initialised store stays out of every
bucket under any further store call. -/
def PartFree (p : UploadPart) (s : UploadMemoryStore) : Prop :=
  s.doneInit = true ∧ p ∉ bucketsMs s

theorem partFree_mem (p : UploadPart) (s : UploadMemoryStore)
    (h : p ∉ bucketsMs s) :
    p ∉ s.toSendParts ∧ p ∉ s.onDutyParts ∧ p ∉ s.failedParts := by
  simp only [bucketsMs, Multiset.mem_add, Multiset.mem_coe] at h
  push_neg at h
  exact ⟨h.1.1, h.1.2, h.2⟩

theorem partFree_preserved (p : UploadPart) (s : UploadMemoryStore)
    (h : PartFree p s) (op : StoreOp) : PartFree p (applyOp s op) := by
  obtain ⟨hdi, hnm⟩ := h
  obtain ⟨hts, hod, hfl⟩ := partFree_mem p s hnm
  cases op with
  | init S' P' =>
      rw [applyOp, init_of_doneInit s hdi]
      exact ⟨hdi, hnm⟩
  | next =>
      rcases hgl : s.toSendParts.getLast? with _ | q
      · have hno : (s.nextPart).2 = s := by
          simp [UploadMemoryStore.nextPart, hgl]
        rw [applyOp, hno]
        exact ⟨hdi, hnm⟩
      · have hqts : q ∈ s.toSendParts := by
          have hdecomp : s.toSendParts.dropLast ++ [q] = s.toSendParts :=
            List.dropLast_append_getLast? q (by rw [hgl]; rfl)
          rw [← hdecomp]
          simp
        have hnext : (s.nextPart).2
            = { s with toSendParts := s.toSendParts.dropLast
                       onDutyParts := setAdd s.onDutyParts q } := by
          simp [UploadMemoryStore.nextPart, hgl]
        rw [applyOp, hnext]
        refine ⟨hdi, ?_⟩
        simp only [bucketsMs, Multiset.mem_add, Multiset.mem_coe]
        push_neg
        refine ⟨⟨?_, ?_⟩, hfl⟩
        · intro hmem
          exact hts ((List.dropLast_sublist _).mem hmem)
        · intro hmem
          by_cases hq : q ∈ s.onDutyParts
          · rw [setAdd, if_pos hq] at hmem
            exact hod hmem
          · rw [setAdd, if_neg hq] at hmem
            rcases List.mem_append.mp hmem with hin | hin
            · exact hod hin
            · exact hts (List.mem_singleton.mp hin ▸ hqts)
  | pass q =>
      by_cases hq : q ∈ s.onDutyParts
      · have heff : s.passPart q
            = { s with onDutyParts := s.onDutyParts.erase q
                       allClear := (s.onDutyParts.erase q).isEmpty
                       doneSize := s.doneSize + q.chunkSize } := by
          simp [UploadMemoryStore.passPart, hq]
        rw [applyOp, heff]
        refine ⟨hdi, ?_⟩
        simp only [bucketsMs, Multiset.mem_add, Multiset.mem_coe]
        push_neg
        exact ⟨⟨hts, fun hmem => hod (List.mem_of_mem_erase hmem)⟩, hfl⟩
      · rw [applyOp, passPart_noop s q hq]
        exact ⟨hdi, hnm⟩
  | fail q =>
      by_cases hq : q ∈ s.onDutyParts
      · have heff : s.failPart q
            = { s with failedParts := s.failedParts ++ [q]
                       onDutyParts := s.onDutyParts.erase q
                       allClear := (s.onDutyParts.erase q).isEmpty } := by
          simp [UploadMemoryStore.failPart, hq]
        rw [applyOp, heff]
        refine ⟨hdi, ?_⟩
        simp only [bucketsMs, Multiset.mem_add, Multiset.mem_coe]
        push_neg
        refine ⟨⟨hts, fun hmem => hod (List.mem_of_mem_erase hmem)⟩, ?_⟩
        intro hmem
        rcases List.mem_append.mp hmem with hin | hin
        · exact hfl hin
        · rw [List.mem_singleton.mp hin] at hod
          exact hod hq
      · rw [applyOp, failPart_noop s q hq]
        exact ⟨hdi, hnm⟩
  | pause =>
      rw [applyOp]
      refine ⟨hdi, ?_⟩
      simp only [UploadMemoryStore.pause, bucketsMs, Multiset.mem_add,
        Multiset.mem_coe]
      push_neg
      refine ⟨⟨?_, by simp⟩, hfl⟩
      intro hmem
      rcases List.mem_append.mp hmem with hin | hin
      · exact hts hin
      · exact hod hin
  | retry =>
      rw [applyOp]
      refine ⟨hdi, ?_⟩
      simp only [UploadMemoryStore.retry, bucketsMs, Multiset.mem_add,
        Multiset.mem_coe]
      push_neg
      refine ⟨⟨?_, hod⟩, by simp⟩
      intro hmem
      rcases List.mem_append.mp hmem with hin | hin
      · exact hts hin
      · exact hfl hin

theorem partFree_fold (p : UploadPart) (ops : List StoreOp) :
    ∀ s : UploadMemoryStore, PartFree p s → PartFree p (applyOps s ops) := by
  induction ops with
  | nil => intro s h; exact h
  | cons op rest ih => intro s h; exact ih _ (partFree_preserved p s h op)

/-- C9: on a reachable store, once `nextPart` hands out a part `p` and
`passPart p` records it, every later `passPart p` or `failPart p` call,
after any further sequence of store calls, leaves the entire store state
unchanged. -/
theorem claim_c9 (s : UploadMemoryStore) (hs : Reachable s) (p : UploadPart)
    (s₁ : UploadMemoryStore) (hnext : s.nextPart = (some p, s₁))
    (ops : List StoreOp) :
    (applyOps (s₁.passPart p) ops).passPart p = applyOps (s₁.passPart p) ops
      ∧ (applyOps (s₁.passPart p) ops).failPart p
          = applyOps (s₁.passPart p) ops := by
  obtain ⟨hempty, hnd⟩ := nodupInv_reachable s hs
  rcases hgl : s.toSendParts.getLast? with _ | q
  · rw [UploadMemoryStore.nextPart, hgl] at hnext
    simp at hnext
  · rw [UploadMemoryStore.nextPart, hgl] at hnext
    obtain ⟨hqp, hs₁⟩ := Prod.mk.injEq .. ▸ hnext
    replace hqp : q = p := by simpa using hqp
    subst hqp
    have hdecomp : s.toSendParts.dropLast ++ [q] = s.toSendParts :=
      List.dropLast_append_getLast? q (by rw [hgl]; rfl)
    obtain ⟨hqdl, hqod, hqfl⟩ := notMem_of_nodup_buckets s q _ hnd hdecomp
    have hs₁' : s₁ = { s with toSendParts := s.toSendParts.dropLast
                              onDutyParts := s.onDutyParts ++ [q] } := by
      rw [← hs₁]
      simp [setAdd, hqod]
    have hqmem₁ : q ∈ s₁.onDutyParts := by
      rw [hs₁']
      simp
    have hod₂ : s₁.onDutyParts.erase q = s.onDutyParts := by
      rw [hs₁']
      simp only []
      rw [List.erase_append_right _ hqod]
      simp
    have heff : s₁.passPart q
        = { s₁ with onDutyParts := s.onDutyParts
                    allClear := s.onDutyParts.isEmpty
                    doneSize := s₁.doneSize + q.chunkSize } := by
      rw [UploadMemoryStore.passPart, if_pos hqmem₁, hod₂]
    have hdi : s.doneInit = true := by
      by_contra hf
      have hb := hempty (by simpa using hf)
      obtain ⟨h1, -, -⟩ := (bucketsMs_eq_zero_iff s).mp hb
      rw [h1] at hgl
      simp at hgl
    have h1 : (s₁.passPart q).toSendParts = s.toSendParts.dropLast := by
      rw [heff, hs₁']
    have h2 : (s₁.passPart q).onDutyParts = s.onDutyParts := by
      rw [heff]
    have h3 : (s₁.passPart q).failedParts = s.failedParts := by
      rw [heff, hs₁']
    have hfree : PartFree q (s₁.passPart q) := by
      refine ⟨?_, ?_⟩
      · rw [heff, hs₁']
        exact hdi
      · simp only [bucketsMs, Multiset.mem_add, Multiset.mem_coe, h1, h2, h3]
        push_neg
        exact ⟨⟨hqdl, hqod⟩, hqfl⟩
    obtain ⟨-, hnm⟩ := partFree_fold q ops _ hfree
    obtain ⟨-, hodf, -⟩ := partFree_mem q _ hnm
    exact ⟨passPart_noop _ _ hodf, failPart_noop _ _ hodf⟩

/-- Witness for C9: the initialised two-part store, where `nextPart` yields
part 2 and the later no-op calls are checked after a further `pause`. -/
theorem claim_c9_witness :
    Reachable (UploadMemoryStore.new.init 2 1)
      ∧ (UploadMemoryStore.new.init 2 1).nextPart
          = (some ⟨2, 1, 2⟩,
              { failedParts := [], onDutyParts := [⟨2, 1, 2⟩]
                toSendParts := [⟨1, 0, 1⟩]
                allClear := false, doneInit := true, doneSize := 0 })
      ∧ ((applyOps
            (({ failedParts := [], onDutyParts := [⟨2, 1, 2⟩]
                toSendParts := [⟨1, 0, 1⟩]
                allClear := false, doneInit := true,
                doneSize := 0 } : UploadMemoryStore).passPart ⟨2, 1, 2⟩)
            [.pause]).passPart ⟨2, 1, 2⟩
          = applyOps
              (({ failedParts := [], onDutyParts := [⟨2, 1, 2⟩]
                  toSendParts := [⟨1, 0, 1⟩]
                  allClear := false, doneInit := true,
                  doneSize := 0 } : UploadMemoryStore).passPart ⟨2, 1, 2⟩)
              [.pause]
        ∧ (applyOps
            (({ failedParts := [], onDutyParts := [⟨2, 1, 2⟩]
                toSendParts := [⟨1, 0, 1⟩]
                allClear := false, doneInit := true,
                doneSize := 0 } : UploadMemoryStore).passPart ⟨2, 1, 2⟩)
            [.pause]).failPart ⟨2, 1, 2⟩
          = applyOps
              (({ failedParts := [], onDutyParts := [⟨2, 1, 2⟩]
                  toSendParts := [⟨1, 0, 1⟩]
                  allClear := false, doneInit := true,
                  doneSize := 0 } : UploadMemoryStore).passPart ⟨2, 1, 2⟩)
              [.pause]) :=
  ⟨⟨[.init 2 1], rfl⟩, by decide,
    claim_c9 _ ⟨[.init 2 1], rfl⟩ _ _ (by decide) [.pause]⟩

/-- C10: `pause` only moves parts between `toSendParts` and `onDutyParts`;
`doneSize`, the failed bucket, the `doneInit` flag (and also `allClear`) are
unchanged, so pausing never discards recorded progress or failures. -/
theorem claim_c10 (s : UploadMemoryStore) :
    (s.pause).getDoneSize = s.getDoneSize
      ∧ (s.pause).failedParts = s.failedParts
      ∧ (s.pause).doneInit = s.doneInit
      ∧ (s.pause).allClear = s.allClear :=
  ⟨rfl, rfl, rfl, rfl⟩

/-- C1 counterexample: the claimed equivalence `getAllClear = true ↔ onDuty
empty` fails on reachable states.  After `init; nextPart; pause` the on-duty
bucket is empty but `getAllClear` is still `false`: `pause` does not
recompute the flag (and the freshly initialised store itself already
violates the equivalence). -/
theorem claim_c1_counterexample :
    Reachable (applyOps UploadMemoryStore.new [.init 2 1, .next, .pause])
      ∧ (applyOps UploadMemoryStore.new [.init 2 1, .next, .pause]).onDutyParts = []
      ∧ (applyOps UploadMemoryStore.new [.init 2 1, .next, .pause]).getAllClear = false
      ∧ (UploadMemoryStore.new.init 2 1).onDutyParts = []
      ∧ (UploadMemoryStore.new.init 2 1).getAllClear = false := by
  refine ⟨⟨[.init 2 1, .next, .pause], rfl⟩, ?_, ?_, ?_, ?_⟩ <;> decide

/-- C1 as amended: `allClear` is recomputed (to the emptiness of the on-duty
bucket) only by a `passPart` or `failPart` call that actually fires; `pause`
empties the on-duty bucket but leaves `allClear` unchanged, and the flag
starts out `false`. -/
theorem claim_c1 (s : UploadMemoryStore) (p : UploadPart)
    (hp : p ∈ s.onDutyParts) :
    (s.passPart p).getAllClear = (s.passPart p).onDutyParts.isEmpty
      ∧ (s.failPart p).getAllClear = (s.failPart p).onDutyParts.isEmpty
      ∧ (s.pause).onDutyParts = []
      ∧ (s.pause).getAllClear = s.getAllClear
      ∧ UploadMemoryStore.new.getAllClear = false := by
  refine ⟨?_, ?_, rfl, rfl, rfl⟩ <;>
    simp [UploadMemoryStore.passPart, UploadMemoryStore.failPart,
      UploadMemoryStore.getAllClear, hp]

/-- Sample store holding exactly one on-duty part, for the witnesses. -/
def sampleOnDutyStore : UploadMemoryStore :=
  { failedParts := [], onDutyParts := [⟨1, 0, 1⟩], toSendParts := []
    allClear := false, doneInit := true, doneSize := 0 }

/-- Witness for C1 as amended, at a store holding one on-duty part. -/
theorem claim_c1_witness :
    (⟨1, 0, 1⟩ : UploadPart) ∈ sampleOnDutyStore.onDutyParts
      ∧ ((sampleOnDutyStore.passPart ⟨1, 0, 1⟩).getAllClear
            = (sampleOnDutyStore.passPart ⟨1, 0, 1⟩).onDutyParts.isEmpty
          ∧ (sampleOnDutyStore.failPart ⟨1, 0, 1⟩).getAllClear
              = (sampleOnDutyStore.failPart ⟨1, 0, 1⟩).onDutyParts.isEmpty
          ∧ (sampleOnDutyStore.pause).onDutyParts = []
          ∧ (sampleOnDutyStore.pause).getAllClear = sampleOnDutyStore.getAllClear
          ∧ UploadMemoryStore.new.getAllClear = false) :=
  ⟨by decide, claim_c1 _ _ (by decide)⟩

/-- State of `UploadQueue` (src/hiresify/src/upload/queue.ts).  Jobs are
identified by opaque ids.  In the source `runningJobs` is only a counter;
the model keeps the ids of running jobs so that `settle` can name the job
whose promise resolved, and `startedJobs` / `enqueuedJobs` are history
ghosts recording each `job()` invocation and each `enqueue` call. -/
structure UploadQueue where
  pendingJobs : List Nat
  runningJobs : List Nat
  startedJobs : List Nat
  enqueuedJobs : List Nat
  deriving DecidableEq, Repr

namespace UploadQueue

/-- Loop body of `runNextJobs`: while `runningJobs < concurrency` and a
pending job exists, shift the front pending job and invoke it.  (The source
checks the counter first and the queue second; the loop runs exactly when
both conditions hold, so matching on the queue first is equivalent.) -/
def runLoop (c : Nat) :
    List Nat → List Nat → List Nat → List Nat × List Nat × List Nat
  | [], running, started => ([], running, started)
  | j :: rest, running, started =>
      if running.length < c then runLoop c rest (j :: running) (started ++ [j])
      else (j :: rest, running, started)

/-- Method `runNextJobs`. -/
def runNextJobs (c : Nat) (q : UploadQueue) : UploadQueue :=
  let (p, r, st) := runLoop c q.pendingJobs q.runningJobs q.startedJobs
  { q with pendingJobs := p, runningJobs := r, startedJobs := st }

/-- Method `enqueue`: push the job, then attempt to run. -/
def enqueue (c : Nat) (j : Nat) (q : UploadQueue) : UploadQueue :=
  runNextJobs c
    { q with pendingJobs := q.pendingJobs ++ [j]
             enqueuedJobs := q.enqueuedJobs ++ [j] }

/-- Settlement of a running job: the `finally` handler decrements the
running counter and schedules another `runNextJobs` on the microtask
queue. -/
def settle (c : Nat) (j : Nat) (q : UploadQueue) : UploadQueue :=
  runNextJobs c { q with runningJobs := q.runningJobs.erase j }

end UploadQueue

/-- Queue states reachable from the empty queue: `enqueue` of a fresh job
(each enqueued closure is a distinct object) or settlement of a currently
running job, in any order. -/
inductive QueueReach (c : Nat) : UploadQueue → Prop
  | start : QueueReach c ⟨[], [], [], []⟩
  | enq {q : UploadQueue} {j : Nat} (hq : QueueReach c q)
      (hj : j ∉ q.enqueuedJobs) : QueueReach c (q.enqueue c j)
  | settle {q : UploadQueue} {j : Nat} (hq : QueueReach c q)
      (hj : j ∈ q.runningJobs) : QueueReach c (q.settle c j)

theorem runLoop_length_le (c : Nat) :
    ∀ (pending running started : List Nat), running.length ≤ c →
      ((UploadQueue.runLoop c pending running started).2.1).length ≤ c := by
  intro pending
  induction pending with
  | nil => intro running started h; exact h
  | cons j rest ih =>
      intro running started h
      rw [UploadQueue.runLoop]
      by_cases hlt : running.length < c
      · rw [if_pos hlt]
        exact ih _ _ (by simp only [List.length_cons]; omega)
      · rw [if_neg hlt]
        exact h

theorem runLoop_perm (c : Nat) :
    ∀ (pending running started : List Nat),
      ((UploadQueue.runLoop c pending running started).1
          ++ (UploadQueue.runLoop c pending running started).2.2).Perm
        (pending ++ started) := by
  intro pending
  induction pending with
  | nil => intro running started; rw [UploadQueue.runLoop]
  | cons j rest ih =>
      intro running started
      rw [UploadQueue.runLoop]
      by_cases hlt : running.length < c
      · rw [if_pos hlt]
        refine (ih (j :: running) (started ++ [j])).trans ?_
        have : rest ++ (started ++ [j]) = rest ++ started ++ [j] := by
          rw [List.append_assoc]
        rw [this]
        have h1 : (rest ++ started ++ [j]).Perm ([j] ++ (rest ++ started)) :=
          List.perm_append_comm
        refine h1.trans ?_
        simp
      · rw [if_neg hlt]

theorem runLoop_started_sub (c : Nat) :
    ∀ (pending running started : List Nat),
      ∀ x ∈ (UploadQueue.runLoop c pending running started).2.2,
        x ∈ pending ∨ x ∈ started := by
  intro pending
  induction pending with
  | nil =>
      intro running started x hx
      rw [UploadQueue.runLoop] at hx
      exact Or.inr hx
  | cons j rest ih =>
      intro running started x hx
      rw [UploadQueue.runLoop] at hx
      by_cases hlt : running.length < c
      · rw [if_pos hlt] at hx
        rcases ih _ _ x hx with h | h
        · exact Or.inl (by simp [h])
        · rcases List.mem_append.mp h with h' | h'
          · exact Or.inr h'
          · exact Or.inl (by simp [List.mem_singleton.mp h'])
      · rw [if_neg hlt] at hx
        exact Or.inr hx

theorem runLoop_drained (c : Nat) (hc : 0 < c) :
    ∀ (pending running started : List Nat),
      (UploadQueue.runLoop c pending running started).2.1 = [] →
      (UploadQueue.runLoop c pending running started).1 = [] := by
  intro pending
  induction pending with
  | nil => intro running started _; rw [UploadQueue.runLoop]
  | cons j rest ih =>
      intro running started hrun
      rw [UploadQueue.runLoop] at hrun ⊢
      by_cases hlt : running.length < c
      · rw [if_pos hlt] at hrun ⊢
        exact ih _ _ hrun
      · rw [if_neg hlt] at hrun ⊢
        exfalso
        simp only [] at hrun
        subst hrun
        simp at hlt
        omega

/-- Invariant of the job queue: the counter never exceeds the concurrency,
pending and started jobs partition the enqueued ones, the enqueued ids are
distinct, running jobs are started, and after every drain a running slot is
free only when nothing is pending. -/
def QueueInv (c : Nat) (q : UploadQueue) : Prop :=
  q.runningJobs.length ≤ c
    ∧ (q.pendingJobs ++ q.startedJobs).Perm q.enqueuedJobs
    ∧ q.enqueuedJobs.Nodup
    ∧ (∀ x ∈ q.runningJobs, x ∈ q.startedJobs)
    ∧ (0 < c → q.runningJobs = [] → q.pendingJobs = [])

theorem runLoop_running_sub (c : Nat) :
    ∀ (pending running started : List Nat),
      ∀ x ∈ (UploadQueue.runLoop c pending running started).2.1,
        x ∈ pending ∨ x ∈ running := by
  intro pending
  induction pending with
  | nil =>
      intro running started x hx
      rw [UploadQueue.runLoop] at hx
      exact Or.inr hx
  | cons j rest ih =>
      intro running started x hx
      rw [UploadQueue.runLoop] at hx
      by_cases hlt : running.length < c
      · rw [if_pos hlt] at hx
        rcases ih _ _ x hx with h | h
        · exact Or.inl (by simp [h])
        · rcases List.mem_cons.mp h with h' | h'
          · exact Or.inl (by simp [h'])
          · exact Or.inr h'
      · rw [if_neg hlt] at hx
        exact Or.inr hx

theorem runLoop_started_mono (c : Nat) :
    ∀ (pending running started : List Nat),
      ∀ x ∈ started, x ∈ (UploadQueue.runLoop c pending running started).2.2 := by
  intro pending
  induction pending with
  | nil =>
      intro running started x hx
      rw [UploadQueue.runLoop]
      exact hx
  | cons j rest ih =>
      intro running started x hx
      rw [UploadQueue.runLoop]
      by_cases hlt : running.length < c
      · rw [if_pos hlt]
        exact ih _ _ x (by simp [hx])
      · rw [if_neg hlt]
        exact hx

theorem runLoop_new_running_started (c : Nat) :
    ∀ (pending running started : List Nat),
      ∀ x ∈ (UploadQueue.runLoop c pending running started).2.1,
        x ∈ running ∨ x ∈ (UploadQueue.runLoop c pending running started).2.2 := by
  intro pending
  induction pending with
  | nil =>
      intro running started x hx
      rw [UploadQueue.runLoop] at hx
      exact Or.inl hx
  | cons j rest ih =>
      intro running started x hx
      rw [UploadQueue.runLoop] at hx ⊢
      by_cases hlt : running.length < c
      · rw [if_pos hlt] at hx ⊢
        rcases ih _ _ x hx with h | h
        · rcases List.mem_cons.mp h with h' | h'
          · refine Or.inr ?_
            refine runLoop_started_mono c rest (j :: running) (started ++ [j]) x ?_
            simp [h']
          · exact Or.inl h'
        · exact Or.inr h
      · rw [if_neg hlt] at hx ⊢
        exact Or.inl hx

theorem queueInv_start (c : Nat) : QueueInv c ⟨[], [], [], []⟩ :=
  ⟨Nat.zero_le c, by simp, List.nodup_nil, by simp, fun _ _ => rfl⟩

theorem queueInv_run (c : Nat) (q : UploadQueue)
    (h1 : q.runningJobs.length ≤ c)
    (h2 : (q.pendingJobs ++ q.startedJobs).Perm q.enqueuedJobs)
    (h3 : q.enqueuedJobs.Nodup)
    (h4 : ∀ x ∈ q.runningJobs, x ∈ q.startedJobs) :
    QueueInv c (q.runNextJobs c) := by
  refine ⟨?_, ?_, h3, ?_, ?_⟩
  · exact runLoop_length_le c _ _ _ h1
  · exact (runLoop_perm c _ _ _).trans h2
  · intro x hx
    rcases runLoop_new_running_started c _ _ _ x hx with h | h
    · exact runLoop_started_mono c _ _ _ x (h4 x h)
    · exact h
  · intro hc hrun
    exact runLoop_drained c hc _ _ _ hrun

theorem queueInv_preserved_enq (c j : Nat) (q : UploadQueue)
    (h : QueueInv c q) (hj : j ∉ q.enqueuedJobs) :
    QueueInv c (q.enqueue c j) := by
  obtain ⟨h1, h2, h3, h4, -⟩ := h
  refine queueInv_run c _ h1 ?_ ?_ h4
  · show ((q.pendingJobs ++ [j]) ++ q.startedJobs).Perm (q.enqueuedJobs ++ [j])
    have hstep1 : (q.pendingJobs ++ [j]) ++ q.startedJobs
        = q.pendingJobs ++ ([j] ++ q.startedJobs) := by
      rw [List.append_assoc]
    have hstep2 : (q.pendingJobs ++ ([j] ++ q.startedJobs)).Perm
        (q.pendingJobs ++ (q.startedJobs ++ [j])) :=
      List.Perm.append_left _ List.perm_append_comm
    have hstep3 : q.pendingJobs ++ (q.startedJobs ++ [j])
        = (q.pendingJobs ++ q.startedJobs) ++ [j] := by
      rw [List.append_assoc]
    have hstep4 : ((q.pendingJobs ++ q.startedJobs) ++ [j]).Perm
        (q.enqueuedJobs ++ [j]) := h2.append_right [j]
    rw [hstep1]
    exact hstep2.trans (by rw [hstep3]; exact hstep4)
  · show (q.enqueuedJobs ++ [j]).Nodup
    rw [List.nodup_append]
    exact ⟨h3, List.nodup_singleton j,
      fun x hx hx' => hj (List.mem_singleton.mp hx' ▸ hx)⟩

theorem queueInv_preserved_settle (c j : Nat) (q : UploadQueue)
    (h : QueueInv c q) : QueueInv c (q.settle c j) := by
  obtain ⟨h1, h2, h3, h4, -⟩ := h
  refine queueInv_run c _ ?_ h2 h3 ?_
  · exact le_trans (List.Sublist.length_le (List.erase_sublist j _)) h1
  · intro x hx
    exact h4 x (List.mem_of_mem_erase hx)

theorem queueInv_reachable (c : Nat) (q : UploadQueue)
    (h : QueueReach c q) : QueueInv c q := by
  induction h with
  | start => exact queueInv_start c
  | enq hq hj ih => exact queueInv_preserved_enq c _ _ ih hj
  | settle hq hj ih => exact queueInv_preserved_settle c _ _ ih

/-- C3: on every queue state reachable by enqueuing fresh jobs and settling
running ones, at most `concurrency` jobs are running at once, every started
job was enqueued and no job is ever invoked twice, and once no job is
running any more (in particular after all jobs have settled) the invoked
jobs are exactly the enqueued ones, each exactly once. -/
theorem claim_c3 (c : Nat) (hc : 1 ≤ c) (q : UploadQueue)
    (hq : QueueReach c q) :
    q.runningJobs.length ≤ c
      ∧ q.startedJobs.Nodup
      ∧ (∀ j ∈ q.startedJobs, j ∈ q.enqueuedJobs)
      ∧ (q.runningJobs = [] → q.startedJobs.Perm q.enqueuedJobs) := by
  obtain ⟨h1, h2, h3, h4, h5⟩ := queueInv_reachable c q hq
  refine ⟨h1, ?_, ?_, ?_⟩
  · exact (h2.nodup_iff.mpr h3).of_append_right
  · intro j hj
    exact h2.subset (List.mem_append.mpr (Or.inr hj))
  · intro hrun
    have hpend : q.pendingJobs = [] := h5 (by omega) hrun
    rw [hpend] at h2
    simpa using h2

/-- Witness for C3: one job enqueued on a fresh queue with concurrency 1. -/
theorem claim_c3_witness :
    1 ≤ 1
      ∧ QueueReach 1 ((⟨[], [], [], []⟩ : UploadQueue).enqueue 1 0)
      ∧ (((⟨[], [], [], []⟩ : UploadQueue).enqueue 1 0).runningJobs.length ≤ 1
          ∧ ((⟨[], [], [], []⟩ : UploadQueue).enqueue 1 0).startedJobs.Nodup
          ∧ (∀ j ∈ ((⟨[], [], [], []⟩ : UploadQueue).enqueue 1 0).startedJobs,
              j ∈ ((⟨[], [], [], []⟩ : UploadQueue).enqueue 1 0).enqueuedJobs)
          ∧ (((⟨[], [], [], []⟩ : UploadQueue).enqueue 1 0).runningJobs = [] →
              ((⟨[], [], [], []⟩ : UploadQueue).enqueue 1 0).startedJobs.Perm
                ((⟨[], [], [], []⟩ : UploadQueue).enqueue 1 0).enqueuedJobs)) :=
  ⟨le_refl 1, QueueReach.enq QueueReach.start (by simp),
    claim_c3 1 (le_refl 1) _ (QueueReach.enq QueueReach.start (by simp))⟩

/-- UploadStatus of src/hiresify/src/upload/type.ts line 14: the string
union `'active' | 'failed' | 'passed' | 'paused' | null`. -/
inductive UploadStatus where
  | active
  | failed
  | passed
  | paused
  | null
  deriving DecidableEq, Repr

/-- The JS value denoted by each status (`none` is the JS `null`). -/
def UploadStatus.jsName : UploadStatus → Option String
  | .active => some "active"
  | .failed => some "failed"
  | .passed => some "passed"
  | .paused => some "paused"
  | .null => none

/-- Per-file controller state of the `useUpload` hook: the ref-held store,
`uploadIdRef` (the empty string until `create` succeeds), the length of the
`controllers` array of abort tokens, and the `useState` status. -/
structure UploadCtrl where
  store : UploadMemoryStore
  uploadId : String
  numControllers : Nat
  status : UploadStatus
  deriving DecidableEq, Repr

/-- Initial hook state: fresh store, empty `uploadIdRef`, empty
`controllers` array, and `useState<UploadStatus>('active')`. -/
def mkUploadCtrl : UploadCtrl :=
  { store := UploadMemoryStore.new, uploadId := "", numControllers := 0
    status := UploadStatus.active }

/-- Outcome of the raw `fetch` inside `api.upload`: a response with its `ok`
flag, a `DOMException` named AbortError, or any other failure. -/
inductive FetchResult where
  | resp (ok : Bool)
  | abortExc
  | netExc
  deriving DecidableEq, Repr

/-- The `upload` function of src/hiresify/src/api/blob.ts: a resolved fetch
is passed through (`buildBoolResponse` keeps `response.ok`); a rejection is
rethrown as `Error('Request aborted.')` when the cause is an AbortError and
as `Error('Network crashed.')` otherwise. -/
def apiUpload : FetchResult → Except String Bool
  | .resp ok => .ok ok
  | .abortExc => .error "Request aborted."
  | .netExc => .error "Network crashed."

/-- Outcome of `api.finish`: resolved with a blob artifact, resolved without
one, or rejected. -/
inductive FinishResult where
  | artifact
  | noBlob
  | threw
  deriving DecidableEq, Repr

/-- Status assigned after finalisation: `setStatus(blob ? 'passed' :
'failed')`, and `'failed'` when `finish` throws. -/
def finishStatus : FinishResult → UploadStatus
  | .artifact => .passed
  | .noBlob => .failed
  | .threw => .failed

/-- Outcome of `api.create`: resolved with a body text (the upload id,
possibly empty, which is falsy in JS), or rejected. -/
inductive CreateResult where
  | resp (text : String)
  | threw
  deriving DecidableEq, Repr

/-- Transport activity observable from the controller: an enqueued part job
stands for the one `uploadPart` call it will perform. -/
inductive TransportCall where
  | createCall
  | uploadCall (p : UploadPart)
  | finishCall
  | cancelCall
  deriving DecidableEq, Repr

/-- Tail of a part job after the store was updated: return unless the store
is all-clear; otherwise clear the controllers array and either mark the
upload failed (incomplete) or finalise. -/
def jobTail (S : Nat) (fr : FinishResult) (c : UploadCtrl) : UploadCtrl :=
  if c.store.getAllClear = false then c
  else
    let c' := { c with numControllers := 0 }
    if c'.store.getDoneSize ≠ S then { c' with status := UploadStatus.failed }
    else { c' with status := finishStatus fr }

/-- One part job produced by the factory (hook.ts lines 81-121 and
src/unnamed/part_011 lines 64-121): classify the `api.upload` outcome,
update the store, and run the finalisation tail.  On the abort
discriminator the job returns at once, before any store access. -/
def jobRun (S : Nat) (p : UploadPart) (r : FetchResult) (fr : FinishResult)
    (c : UploadCtrl) : UploadCtrl :=
  match apiUpload r with
  | .ok true => jobTail S fr { c with store := c.store.passPart p }
  | .ok false => jobTail S fr { c with store := c.store.failPart p }
  | .error msg =>
      if msg = "Request aborted." then c
      else jobTail S fr { c with store := c.store.failPart p }

theorem nextPart_some_length (s s' : UploadMemoryStore) (p : UploadPart)
    (h : s.nextPart = (some p, s')) :
    s'.toSendParts.length < s.toSendParts.length := by
  rcases hgl : s.toSendParts.getLast? with _ | q
  · rw [UploadMemoryStore.nextPart, hgl] at h
    simp at h
  · rw [UploadMemoryStore.nextPart, hgl] at h
    obtain ⟨-, h2⟩ := Prod.ext_iff.mp h
    subst h2
    have hne : s.toSendParts ≠ [] := by
      intro hnil
      rw [hnil] at hgl
      simp at hgl
    have hpos := List.length_pos.mpr hne
    simp only [List.length_dropLast]
    omega

/-- The `enqueueJobs` loop of `start`: drain the store with `nextPart`, and
for each part push one abort controller and enqueue one part job (recorded
as the `uploadPart` call that job performs). -/
def enqueueJobs (c : UploadCtrl) (acc : List TransportCall) :
    UploadCtrl × List TransportCall :=
  match hnp : c.store.nextPart with
  | (none, _) => (c, acc)
  | (some p, s') =>
      enqueueJobs
        { c with store := s', numControllers := c.numControllers + 1 }
        (acc ++ [TransportCall.uploadCall p])
termination_by c.store.toSendParts.length
decreasing_by
  exact nextPart_some_length _ _ _ hnp

/-- Operation `start`: with an upload id already assigned, set the status
active and drain; otherwise call `create` first, failing on a rejection or
an empty id, and on success record the id, initialise the store, set the
status active and drain. -/
def startCtrl (S P : Nat) (cr : CreateResult) (c : UploadCtrl) :
    UploadCtrl × List TransportCall :=
  if c.uploadId ≠ "" then
    enqueueJobs { c with status := UploadStatus.active } []
  else
    match cr with
    | .threw => ({ c with status := UploadStatus.failed }, [.createCall])
    | .resp t =>
        if t = "" then ({ c with status := UploadStatus.failed }, [.createCall])
        else
          let c' := { c with uploadId := t, store := c.store.init S P }
          let r := enqueueJobs { c' with status := UploadStatus.active } []
          (r.1, TransportCall.createCall :: r.2)

/-- Operation `pause`: pop and trip every abort controller, await
`store.pause()`, set the status paused. -/
def pauseCtrl (c : UploadCtrl) : UploadCtrl × List TransportCall :=
  ({ c with numControllers := 0, store := c.store.pause
            status := UploadStatus.paused }, [])

/-- Operation `retry` (src/unnamed/part_011 lines 176-207): when
`doneSize < file.size`, move the failed parts back and re-run `start`;
otherwise clear the controllers and call `finish` directly, setting the
status from its outcome. -/
def retryCtrl (S P : Nat) (cr : CreateResult) (fr : FinishResult)
    (c : UploadCtrl) : UploadCtrl × List TransportCall :=
  if c.store.getDoneSize < S then
    startCtrl S P cr { c with store := c.store.retry }
  else
    ({ c with numControllers := 0, status := finishStatus fr },
      [TransportCall.finishCall])

/-- Operation `abort`: `pause`, then fire `cancel` when an upload id is
known. -/
def abortCtrl (c : UploadCtrl) : UploadCtrl × List TransportCall :=
  if (pauseCtrl c).1.uploadId = "" then ((pauseCtrl c).1, [])
  else ((pauseCtrl c).1, [TransportCall.cancelCall])

theorem nextPart_none_toSend (s s₂ : UploadMemoryStore)
    (h : s.nextPart = (none, s₂)) : s.toSendParts = [] := by
  rcases hgl : s.toSendParts.getLast? with _ | q
  · cases hl : s.toSendParts with
    | nil => rfl
    | cons x xs =>
        rw [hl] at hgl
        simp [List.getLast?_concat] at hgl
  · rw [UploadMemoryStore.nextPart, hgl] at h
    simp at h

theorem nextPart_some_fields (s s' : UploadMemoryStore) (p : UploadPart)
    (h : s.nextPart = (some p, s')) :
    s'.failedParts = s.failedParts
      ∧ s'.doneSize = s.doneSize
      ∧ s'.doneInit = s.doneInit
      ∧ s'.allClear = s.allClear
      ∧ s.toSendParts.reverse = p :: s'.toSendParts.reverse := by
  rcases hgl : s.toSendParts.getLast? with _ | q
  · rw [UploadMemoryStore.nextPart, hgl] at h
    simp at h
  · rw [UploadMemoryStore.nextPart, hgl] at h
    obtain ⟨h1, h2⟩ := Prod.ext_iff.mp h
    have hq : q = p := Option.some.inj h1
    subst hq
    subst h2
    refine ⟨rfl, rfl, rfl, rfl, ?_⟩
    have hdecomp : s.toSendParts.dropLast ++ [q] = s.toSendParts :=
      List.dropLast_append_getLast? q (by rw [hgl]; rfl)
    conv_lhs => rw [← hdecomp]
    simp

theorem enqueueJobs_none (c : UploadCtrl) (acc : List TransportCall)
    (s : UploadMemoryStore) (h : c.store.nextPart = (none, s)) :
    enqueueJobs c acc = (c, acc) := by
  unfold enqueueJobs
  split
  · rfl
  next p s' heq =>
    rw [h] at heq
    simp at heq

theorem enqueueJobs_some (c : UploadCtrl) (acc : List TransportCall)
    (p : UploadPart) (s' : UploadMemoryStore)
    (h : c.store.nextPart = (some p, s')) :
    enqueueJobs c acc
      = enqueueJobs
          { c with store := s', numControllers := c.numControllers + 1 }
          (acc ++ [TransportCall.uploadCall p]) := by
  conv_lhs => rw [enqueueJobs]
  split
  next s'' heq =>
    rw [h] at heq
    simp at heq
  next q s'' heq =>
    rw [h] at heq
    obtain ⟨h1, h2⟩ := Prod.ext_iff.mp heq
    have hq : p = q := Option.some.inj h1
    subst hq
    subst h2
    rfl

/-- Overall effect of the `enqueueJobs` drain: the store is emptied of
to-send parts (only `toSendParts` and `onDutyParts` change), the upload id
and status are untouched, and exactly one part job per drained part is
enqueued, in pop order. -/
theorem enqueueJobs_spec (n : Nat) :
    ∀ (c : UploadCtrl) (acc : List TransportCall),
      c.store.toSendParts.length = n →
      ((enqueueJobs c acc).1).store.toSendParts = []
        ∧ ((enqueueJobs c acc).1).store.failedParts = c.store.failedParts
        ∧ ((enqueueJobs c acc).1).store.doneSize = c.store.doneSize
        ∧ ((enqueueJobs c acc).1).store.doneInit = c.store.doneInit
        ∧ ((enqueueJobs c acc).1).store.allClear = c.store.allClear
        ∧ ((enqueueJobs c acc).1).uploadId = c.uploadId
        ∧ ((enqueueJobs c acc).1).status = c.status
        ∧ (enqueueJobs c acc).2
            = acc ++ (c.store.toSendParts.reverse).map TransportCall.uploadCall := by
  induction n using Nat.strong_induction_on with
  | _ n ih =>
      intro c acc hn
      rcases hnp : c.store.nextPart with ⟨_ | p, s'⟩
      · rw [enqueueJobs_none c acc s' hnp]
        have hts := nextPart_none_toSend c.store s' hnp
        simp [hts]
      · rw [enqueueJobs_some c acc p s' hnp]
        have hlt := nextPart_some_length c.store s' p hnp
        obtain ⟨hf, hd, hdi, hac, hrev⟩ := nextPart_some_fields c.store s' p hnp
        have hspec := ih s'.toSendParts.length (by omega)
          { c with store := s', numControllers := c.numControllers + 1 }
          (acc ++ [TransportCall.uploadCall p]) rfl
        obtain ⟨g1, g2, g3, g4, g5, g6, g7, g8⟩ := hspec
        refine ⟨g1, by rw [g2]; exact hf, by rw [g3]; exact hd,
          by rw [g4]; exact hdi, by rw [g5]; exact hac, g6, g7, ?_⟩
        rw [g8, hrev]
        simp

theorem jobTail_store (S : Nat) (fr : FinishResult) (c : UploadCtrl) :
    (jobTail S fr c).store = c.store := by
  unfold jobTail
  dsimp only
  split_ifs <;> rfl

theorem jobTail_status (S : Nat) (fr : FinishResult) (c : UploadCtrl) :
    (jobTail S fr c).status = c.status
      ∨ (jobTail S fr c).status = UploadStatus.failed
      ∨ (jobTail S fr c).status = finishStatus fr := by
  unfold jobTail
  dsimp only
  split_ifs <;> simp

/-- C5: the part job classifies the transport outcome exactly as specified:
an ok response passes the part, a not-ok response fails it, a non-abort
rejection fails it, and the abort discriminator returns at once with the
whole controller state (in particular the store) untouched. -/
theorem claim_c5 (S : Nat) (p : UploadPart) (fr : FinishResult)
    (c : UploadCtrl) :
    (jobRun S p (.resp true) fr c).store = c.store.passPart p
      ∧ (jobRun S p (.resp false) fr c).store = c.store.failPart p
      ∧ jobRun S p .abortExc fr c = c
      ∧ (jobRun S p .netExc fr c).store = c.store.failPart p := by
  refine ⟨?_, ?_, ?_, ?_⟩
  · show (jobTail S fr { c with store := c.store.passPart p }).store = _
    rw [jobTail_store]
  · show (jobTail S fr { c with store := c.store.failPart p }).store = _
    rw [jobTail_store]
  · simp [jobRun, apiUpload]
  · show (if ("Network crashed." = "Request aborted.") then c
        else jobTail S fr { c with store := c.store.failPart p }).store = _
    rw [if_neg (by simp), jobTail_store]

/-- C4: after the controller's `pause` resolves, the store's on-duty bucket
is empty, and any late `passPart` / `failPart` for any part at all is a
complete no-op; in particular `doneSize` cannot change any more without a
restart. -/
theorem claim_c4 (c : UploadCtrl) (p : UploadPart) :
    ((pauseCtrl c).1).store.onDutyParts = []
      ∧ ((pauseCtrl c).1).store.passPart p = ((pauseCtrl c).1).store
      ∧ ((pauseCtrl c).1).store.failPart p = ((pauseCtrl c).1).store
      ∧ (((pauseCtrl c).1).store.passPart p).getDoneSize
          = ((pauseCtrl c).1).store.getDoneSize
      ∧ (((pauseCtrl c).1).store.failPart p).getDoneSize
          = ((pauseCtrl c).1).store.getDoneSize
      ∧ ((pauseCtrl c).1).status = UploadStatus.paused := by
  have hod : ((pauseCtrl c).1).store.onDutyParts = [] := rfl
  have hpass := passPart_noop ((pauseCtrl c).1).store p (by rw [hod]; simp)
  have hfail := failPart_noop ((pauseCtrl c).1).store p (by rw [hod]; simp)
  exact ⟨hod, hpass, hfail, by rw [hpass], by rw [hfail], rfl⟩

/-- C8 counterexample: the controller's observable status starts out as
`'active'`, not `'idle'`; indeed `'idle'` is not even a value of the
`UploadStatus` type. -/
theorem claim_c8_counterexample :
    mkUploadCtrl.status = UploadStatus.active
      ∧ mkUploadCtrl.status.jsName = some "active"
      ∧ mkUploadCtrl.status.jsName ≠ some "idle" := by
  refine ⟨rfl, rfl, ?_⟩
  simp [mkUploadCtrl, UploadStatus.jsName]

/-- C8 as amended: the controller is created with status `'active'` (no
`'idle'` value exists in `UploadStatus`), and the status changes only
through the operations: `pause` and `abort` always leave it `'paused'`,
`start` leaves it `'active'` or `'failed'`, `retry` leaves it `'active'`,
`'failed'` or `'passed'`, and a settling part job leaves it unchanged or
sets `'failed'` or `'passed'`. -/
theorem claim_c8 :
    mkUploadCtrl.status = UploadStatus.active
      ∧ (∀ st : UploadStatus, st.jsName ≠ some "idle")
      ∧ (∀ c : UploadCtrl, ((pauseCtrl c).1).status = UploadStatus.paused)
      ∧ (∀ c : UploadCtrl, ((abortCtrl c).1).status = UploadStatus.paused)
      ∧ (∀ (S P : Nat) (cr : CreateResult) (c : UploadCtrl),
          ((startCtrl S P cr c).1).status = UploadStatus.active
            ∨ ((startCtrl S P cr c).1).status = UploadStatus.failed)
      ∧ (∀ (S P : Nat) (cr : CreateResult) (fr : FinishResult) (c : UploadCtrl),
          ((retryCtrl S P cr fr c).1).status = UploadStatus.active
            ∨ ((retryCtrl S P cr fr c).1).status = UploadStatus.failed
            ∨ ((retryCtrl S P cr fr c).1).status = UploadStatus.passed)
      ∧ (∀ (S : Nat) (p : UploadPart) (r : FetchResult) (fr : FinishResult)
            (c : UploadCtrl),
          (jobRun S p r fr c).status = c.status
            ∨ (jobRun S p r fr c).status = UploadStatus.failed
            ∨ (jobRun S p r fr c).status = UploadStatus.passed) := by
  have hstart : ∀ (S P : Nat) (cr : CreateResult) (c : UploadCtrl),
      ((startCtrl S P cr c).1).status = UploadStatus.active
        ∨ ((startCtrl S P cr c).1).status = UploadStatus.failed := by
    intro S P cr c
    unfold startCtrl
    by_cases hid : c.uploadId ≠ ""
    · rw [if_pos hid]
      obtain ⟨-, -, -, -, -, -, g7, -⟩ :=
        enqueueJobs_spec _ { c with status := UploadStatus.active } [] rfl
      exact Or.inl g7
    · rw [if_neg hid]
      cases cr with
      | threw => exact Or.inr rfl
      | resp t =>
          dsimp only
          by_cases ht : t = ""
          · rw [if_pos ht]
            exact Or.inr rfl
          · rw [if_neg ht]
            obtain ⟨-, -, -, -, -, -, g7, -⟩ :=
              enqueueJobs_spec _
                { c with uploadId := t, store := c.store.init S P
                         status := UploadStatus.active } [] rfl
            exact Or.inl g7
  have hjobTail : ∀ (S : Nat) (fr : FinishResult) (c : UploadCtrl),
      (jobTail S fr c).status = c.status
        ∨ (jobTail S fr c).status = UploadStatus.failed
        ∨ (jobTail S fr c).status = UploadStatus.passed := by
    intro S fr c
    rcases jobTail_status S fr c with h | h | h
    · exact Or.inl h
    · exact Or.inr (Or.inl h)
    · cases fr <;> simp [finishStatus] at h <;> simp [h]
  refine ⟨rfl, ?_, fun c => rfl, fun c => ?_, hstart, ?_, ?_⟩
  · intro st
    cases st <;> simp [UploadStatus.jsName]
  · unfold abortCtrl
    split_ifs <;> rfl
  · intro S P cr fr c
    unfold retryCtrl
    split_ifs with hlt
    · rcases hstart S P cr { c with store := c.store.retry } with h | h
      · exact Or.inl h
      · exact Or.inr (Or.inl h)
    · cases fr <;> simp [finishStatus]
  · intro S p r fr c
    cases r with
    | resp ok =>
        cases ok with
        | true =>
            have := hjobTail S fr { c with store := c.store.passPart p }
            simpa [jobRun, apiUpload] using this
        | false =>
            have := hjobTail S fr { c with store := c.store.failPart p }
            simpa [jobRun, apiUpload] using this
    | abortExc => simp [jobRun, apiUpload]
    | netExc =>
        have := hjobTail S fr { c with store := c.store.failPart p }
        simpa [jobRun, apiUpload] using this

/-- C7: from a quiescent failed controller with an assigned upload id,
`retry` with `doneSize < S` moves every failed part back to `toSendParts`
and re-runs `start`, enqueuing exactly one part job per previously failed
part (and touching neither `doneSize` nor the recorded id); with
`doneSize = S` it performs exactly one direct `finish` call and no
`uploadPart` (and leaves the store untouched). -/
theorem claim_c7 (S P : Nat) (cr : CreateResult) (fr : FinishResult)
    (c : UploadCtrl) (hst : c.status = UploadStatus.failed)
    (hid : c.uploadId ≠ "") (hts : c.store.toSendParts = [])
    (hod : c.store.onDutyParts = []) :
    (c.store.getDoneSize < S →
        (retryCtrl S P cr fr c).2
            = (c.store.failedParts.reverse).map TransportCall.uploadCall
          ∧ ((retryCtrl S P cr fr c).1).store.failedParts = []
          ∧ ((retryCtrl S P cr fr c).1).store.toSendParts = []
          ∧ ((retryCtrl S P cr fr c).1).status = UploadStatus.active
          ∧ ((retryCtrl S P cr fr c).1).store.doneSize = c.store.doneSize)
      ∧ (c.store.getDoneSize = S →
          (retryCtrl S P cr fr c).2 = [TransportCall.finishCall]
            ∧ ((retryCtrl S P cr fr c).1).store = c.store) := by
  constructor
  · intro hlt
    unfold retryCtrl
    rw [if_pos hlt]
    unfold startCtrl
    rw [if_pos (show ({ c with store := c.store.retry } : UploadCtrl).uploadId ≠ ""
      from hid)]
    obtain ⟨g1, g2, g3, -, -, -, g7, g8⟩ :=
      enqueueJobs_spec _
        { c with store := c.store.retry, status := UploadStatus.active } [] rfl
    have hretry : (c.store.retry).toSendParts = c.store.failedParts := by
      rw [UploadMemoryStore.retry]
      simp [hts]
    refine ⟨?_, ?_, ?_, ?_, ?_⟩
    · rw [g8]
      simp only [List.nil_append]
      rw [show ({ c with store := c.store.retry, status := UploadStatus.active } : UploadCtrl).store.toSendParts = c.store.failedParts from hretry]
    · exact g2
    · exact g1
    · exact g7
    · exact g3
  · intro heq
    unfold retryCtrl
    rw [if_neg (by omega)]
    exact ⟨rfl, rfl⟩

/-- Sample quiescent failed controller holding one failed part, for the C7
witness. -/
def sampleFailedCtrl : UploadCtrl :=
  { store := { failedParts := [⟨1, 0, 1⟩], onDutyParts := []
               toSendParts := [], allClear := true, doneInit := true
               doneSize := 0 }
    uploadId := "u", numControllers := 0, status := UploadStatus.failed }

/-- Witness for C7 at a one-failed-part controller with `S = 1`: the part
never passed, so the first implication fires and the second is vacuous. -/
theorem claim_c7_witness :
    sampleFailedCtrl.status = UploadStatus.failed
      ∧ sampleFailedCtrl.uploadId ≠ ""
      ∧ sampleFailedCtrl.store.toSendParts = []
      ∧ sampleFailedCtrl.store.onDutyParts = []
      ∧ ((sampleFailedCtrl.store.getDoneSize < 1 →
            (retryCtrl 1 1 CreateResult.threw FinishResult.artifact sampleFailedCtrl).2
                = (sampleFailedCtrl.store.failedParts.reverse).map TransportCall.uploadCall
              ∧ ((retryCtrl 1 1 CreateResult.threw FinishResult.artifact sampleFailedCtrl).1).store.failedParts = []
              ∧ ((retryCtrl 1 1 CreateResult.threw FinishResult.artifact sampleFailedCtrl).1).store.toSendParts = []
              ∧ ((retryCtrl 1 1 CreateResult.threw FinishResult.artifact sampleFailedCtrl).1).status
                  = UploadStatus.active
              ∧ ((retryCtrl 1 1 CreateResult.threw FinishResult.artifact sampleFailedCtrl).1).store.doneSize
                  = sampleFailedCtrl.store.doneSize)
          ∧ (sampleFailedCtrl.store.getDoneSize = 1 →
              (retryCtrl 1 1 CreateResult.threw FinishResult.artifact sampleFailedCtrl).2
                  = [TransportCall.finishCall]
                ∧ ((retryCtrl 1 1 CreateResult.threw FinishResult.artifact sampleFailedCtrl).1).store
                    = sampleFailedCtrl.store)) :=
  ⟨rfl, by decide, rfl, rfl,
    claim_c7 1 1 CreateResult.threw FinishResult.artifact _ rfl (by decide) rfl rfl⟩

end Hiresify
